import Mathlib

/-!
Shallow embedding of the cough-classification inference pipeline
(`app/inference.py`) and proofs about it.

Modelling conventions:
* Audio samples, spectrogram magnitudes and decibel values are exact
  rationals (`ℚ`); IEEE-754 non-finite results (NaN, ±inf) are modelled by
  `none` in the carrier `F := Option ℚ`, and every arithmetic operation on
  `F` propagates `none`.  Division returns `none` when the denominator is
  zero, exactly where numpy float division produces NaN/inf.
* Library calls whose internals live outside this repository
  (`librosa.feature.melspectrogram` + `librosa.power_to_db`,
  `librosa.stft`/`istft`) are abstracted as explicit function parameters
  (`melDb`, `denoise`); the code of this repository that consumes their
  results is embedded line by line.
* Probabilities produced by `torch.softmax` are modelled over `ℝ` with
  `Real.exp`, faithful to the mathematical definition of softmax.
-/

namespace CoughPipeline

/-- Carrier for numpy float results: `none` models a non-finite value
(NaN or ±inf) produced by a division by zero; `some q` is a finite value. -/
abbrev F := Option ℚ

/-- Float subtraction: propagates non-finite operands. -/
def fsub : F → F → F
  | some a, some b => some (a - b)
  | _, _ => none

/-- Float multiplication: propagates non-finite operands. -/
def fmul : F → F → F
  | some a, some b => some (a * b)
  | _, _ => none

/-- Float addition: propagates non-finite operands. -/
def fadd : F → F → F
  | some a, some b => some (a + b)
  | _, _ => none

/-- Float division: a zero denominator yields a non-finite value (NaN for
`0/0`, ±inf otherwise), modelled uniformly as `none`. -/
def fdiv : F → F → F
  | some a, some b => if b = 0 then none else some (a / b)
  | _, _ => none

/-- Minimum of all entries of a matrix, as computed by `ndarray.min()`
(flatten, then fold `min`); `0` is a junk value for the empty matrix,
where numpy would raise. -/
def matMin (db : List (List ℚ)) : ℚ := (db.flatten.min?).getD 0

/-- Maximum of all entries of a matrix, as computed by `ndarray.max()`. -/
def matMax (db : List (List ℚ)) : ℚ := (db.flatten.max?).getD 0

/-- Elementwise normalization applied to one cell of `mel_spec_db`
(lines 36-37 of `inference.py`):
`(x - min) / (max - min) * (mel_max - mel_min) + mel_min`. -/
def normCell (m M lo hi x : ℚ) : F :=
  fadd (fmul (fdiv (some (x - m)) (some (M - m))) (some (hi - lo))) (some lo)

/-- The min-max normalization of the decibel mel-spectrogram, lines 34-37 of
`inference.py`.  `norm_range = (mel_min, mel_max)`. -/
def normalizeDb (db : List (List ℚ)) (norm_range : ℚ × ℚ) : List (List F) :=
  db.map (fun row => row.map (normCell (matMin db) (matMax db) norm_range.1 norm_range.2))

/-- Embedding of `preprocess` (lines 13-41 of `inference.py`).  The library
composition `power_to_db(melspectrogram(audio, sr, n_mels, hop_length))`
(lines 31-32) is abstracted as the parameter `melDb`; as in the source it
receives the audio but not `duration`.  Lines 34-37 normalize, line 40 adds
the two leading singleton dimensions (`unsqueeze(0).unsqueeze(0)`). -/
def preprocess (melDb : List ℚ → List (List ℚ)) (audio : List ℚ)
    (duration : ℚ) (norm_range : ℚ × ℚ) : List (List (List (List F))) :=
  [[normalizeDb (melDb audio) norm_range]]

/-- The fixed amplitude threshold of line 113 of `inference.py`
(`amplitude_threshold = 0.05`). -/
def amplitude_threshold : ℚ := 1 / 20

/-- Index of the first sample whose absolute amplitude exceeds the
threshold: `np.where(np.abs(y_denoised) > amplitude_threshold)[0]` followed
by taking element `[0]` (lines 114 and 120). -/
def firstActive (y : List ℚ) : Option ℕ :=
  y.findIdx? (fun x => decide (amplitude_threshold < |x|))

/-- Embedding of lines 112-124 of `inference.py`: cough detection and
segment extraction on the (already denoised) waveform `y`.  Raising
`ValueError` is modelled as `Except.error`.  `i - sr / 2` in `ℕ`
truncated subtraction equals Python's `max(0, i - sr // 2)`. -/
def extract_cough (y : List ℚ) (sr : ℕ) : Except String (List ℚ) :=
  match firstActive y with
  | none => Except.error "No cough detected in the audio."
  | some i =>
    let start_idx := i - sr / 2
    let end_idx := min y.length (start_idx + sr)
    Except.ok ((y.drop start_idx).take (end_idx - start_idx))

/-- Embedding of `reduce_noise_and_extract_cough` (lines 83-124).  The
STFT-based denoising chain (lines 94-110, library calls `librosa.stft`,
`librosa.istft`) is abstracted as the parameter `denoise`; the segmentation
tail (lines 112-124) is `extract_cough`. -/
def reduce_noise_and_extract_cough (denoise : List ℚ → List ℚ)
    (y : List ℚ) (sr : ℕ) : Except String (List ℚ) :=
  extract_cough (denoise y) sr

/-- Duration in seconds, as `librosa.get_duration(y=y, sr=sr)` computes it:
number of samples divided by the sample rate. -/
def get_duration (y : List ℚ) (sr : ℕ) : ℚ := (y.length : ℚ) / (sr : ℚ)

/-- Embedding of lines 191-194 of `inference.py`: the waveform handed to
featurization is the denoised cough segment when the duration exceeds one
second, and the raw waveform otherwise. -/
def selectWaveform (denoise : List ℚ → List ℚ) (y : List ℚ) (sr : ℕ) :
    Except String (List ℚ) :=
  if 1 < get_duration y sr then reduce_noise_and_extract_cough denoise y sr
  else Except.ok y

/-- Segmentation followed by featurization, as composed by the main block
(line 192 feeding line 196): a segmentation failure short-circuits and no
featurization happens. -/
def pipelineSegmented (melDb : List ℚ → List (List ℚ)) (y : List ℚ) (sr : ℕ)
    (duration : ℚ) (norm_range : ℚ × ℚ) :
    Except String (List (List (List (List F)))) :=
  (extract_cough y sr).map (fun seg => preprocess melDb seg duration norm_range)

/-- Spectral gating (lines 103-106 of `inference.py`): per frequency bin,
subtract `noise_reduction_level * noise_power[bin]` from every magnitude in
that bin's row (the `[:, np.newaxis]` broadcast) and clamp at zero
(`np.maximum(magnitude - noise_threshold, 0)`). -/
def magnitude_denoised (noise_power : List ℚ) (level : ℚ)
    (magnitude : List (List ℚ)) : List (List ℚ) :=
  List.zipWith (fun p row => row.map (fun m => max (m - level * p) 0))
    noise_power magnitude

/-- Recombination of the gated magnitude with the original phase
(line 109, `magnitude_denoised * np.exp(1j * phase)`): the complex result is
kept in polar form as a (modulus, argument) pair per bin. -/
def stft_denoised (noise_power : List ℚ) (level : ℚ)
    (magnitude phase : List (List ℚ)) : List (List (ℚ × ℚ)) :=
  List.zipWith (fun row prow => row.zip prow)
    (magnitude_denoised noise_power level magnitude) phase

/-- Softmax over a logits vector (`torch.softmax(outputs, dim=1)` on the
single row, line 72): `exp xᵢ / Σⱼ exp xⱼ`. -/
noncomputable def softmax (logits : List ℝ) : List ℝ :=
  logits.map (fun x => Real.exp x / (logits.map Real.exp).sum)

/-- Index of the first occurrence of the maximum (`torch.argmax(probs)`,
line 75; torch returns the index of the first maximal value).  `0` is a junk
value for the empty list, where torch would raise. -/
def argmax {α : Type} [LinearOrder α] (l : List α) : ℕ :=
  match l.max? with
  | none => 0
  | some M => l.findIdx (fun x => decide (M ≤ x))

/-- The class-probability mapping built on line 79:
`{class_names[i]: probs[i] for i in range(len(class_names))}`, modelled as
an association list in the same order. -/
def class_probabilities (class_names : List String) (probs : List ℝ) :
    List (String × ℝ) :=
  (List.range class_names.length).map (fun i => (class_names.getD i "", probs.getD i 0))

/-- Embedding of the decision tail of `predict_audio` (lines 70-81), given
the raw logits the frozen network produced for the feature tensor: softmax,
arg-max class selection, and the full probability mapping. -/
noncomputable def predict_audio (logits : List ℝ) (class_names : List String) :
    String × List (String × ℝ) :=
  let probs := softmax logits
  (class_names.getD (argmax probs) "", class_probabilities class_names probs)

/-! Helper lemmas about `List.min?` / `List.max?` over a linear order. -/

theorem min?_spec {α : Type} [LinearOrder α] {l : List α} (h : l ≠ []) :
    ∃ a, l.min? = some a ∧ a ∈ l ∧ ∀ x ∈ l, a ≤ x := by
  cases e : l.min? with
  | none => exact absurd (List.min?_eq_none_iff.mp e) h
  | some a =>
    refine ⟨a, rfl, List.min?_mem (fun _ _ => min_choice _ _) e, ?_⟩
    intro x hx
    exact (List.le_min?_iff (fun _ _ _ => le_min_iff) e).mp le_rfl x hx

theorem max?_spec {α : Type} [LinearOrder α] {l : List α} (h : l ≠ []) :
    ∃ a, l.max? = some a ∧ a ∈ l ∧ ∀ x ∈ l, x ≤ a := by
  cases e : l.max? with
  | none => exact absurd (List.max?_eq_none_iff.mp e) h
  | some a =>
    refine ⟨a, rfl, List.max?_mem (fun _ _ => max_choice _ _) e, ?_⟩
    intro x hx
    exact (List.max?_le_iff (fun _ _ _ => max_le_iff) e).mp le_rfl x hx

theorem matMin_le {db : List (List ℚ)} {x : ℚ} (hx : x ∈ db.flatten) :
    matMin db ≤ x := by
  obtain ⟨a, ha, -, hmin⟩ := min?_spec (l := db.flatten) (List.ne_nil_of_mem hx)
  simpa [matMin, ha] using hmin x hx

theorem le_matMax {db : List (List ℚ)} {x : ℚ} (hx : x ∈ db.flatten) :
    x ≤ matMax db := by
  obtain ⟨a, ha, -, hmax⟩ := max?_spec (l := db.flatten) (List.ne_nil_of_mem hx)
  simpa [matMax, ha] using hmax x hx

theorem matMin_mem {db : List (List ℚ)} (h : db.flatten ≠ []) :
    matMin db ∈ db.flatten := by
  obtain ⟨a, ha, hmem, -⟩ := min?_spec h
  simpa [matMin, ha] using hmem

theorem matMax_mem {db : List (List ℚ)} (h : db.flatten ≠ []) :
    matMax db ∈ db.flatten := by
  obtain ⟨a, ha, hmem, -⟩ := max?_spec h
  simpa [matMax, ha] using hmem

theorem flatten_ne_nil_of_lt {db : List (List ℚ)} (h : matMin db < matMax db) :
    db.flatten ≠ [] := by
  intro hnil
  rw [matMin, matMax, hnil] at h
  simp at h

/-! Helper lemmas about `normCell`. -/

theorem normCell_eq {m M : ℚ} (lo hi x : ℚ) (hne : M - m ≠ 0) :
    normCell m M lo hi x = some ((x - m) / (M - m) * (hi - lo) + lo) := by
  simp [normCell, fdiv, fmul, fadd, hne]

theorem normCell_bounds {m M lo hi x : ℚ} (hlt : m < M) (hlo : lo ≤ hi)
    (hm : m ≤ x) (hM : x ≤ M) :
    ∃ q, normCell m M lo hi x = some q ∧ lo ≤ q ∧ q ≤ hi := by
  have hpos : (0 : ℚ) < M - m := sub_pos.mpr hlt
  refine ⟨(x - m) / (M - m) * (hi - lo) + lo,
    normCell_eq lo hi x (ne_of_gt hpos), ?_, ?_⟩
  · have ht : 0 ≤ (x - m) / (M - m) :=
      div_nonneg (sub_nonneg.mpr hm) hpos.le
    nlinarith [mul_nonneg ht (sub_nonneg.mpr hlo)]
  · have ht1 : (x - m) / (M - m) ≤ 1 :=
      (div_le_one hpos).mpr (sub_le_sub_right hM m)
    have ht : 0 ≤ (x - m) / (M - m) :=
      div_nonneg (sub_nonneg.mpr hm) hpos.le
    nlinarith [mul_le_mul_of_nonneg_right ht1 (sub_nonneg.mpr hlo)]

theorem normCell_at_min {m M : ℚ} (lo hi : ℚ) (hlt : m < M) :
    normCell m M lo hi m = some lo := by
  rw [normCell_eq lo hi m (ne_of_gt (sub_pos.mpr hlt))]
  simp

theorem normCell_at_max {m M : ℚ} (lo hi : ℚ) (hlt : m < M) :
    normCell m M lo hi M = some hi := by
  rw [normCell_eq lo hi M (ne_of_gt (sub_pos.mpr hlt))]
  rw [div_self (ne_of_gt (sub_pos.mpr hlt))]
  ring_nf

/-- Every cell of the normalized spectrogram is a finite value inside
`[lo, hi]`, and both bounds are attained somewhere. -/
def NormRangeOK (db : List (List ℚ)) (lo hi : ℚ) : Prop :=
  (∀ row ∈ normalizeDb db (lo, hi), ∀ v ∈ row, ∃ q, v = some q ∧ lo ≤ q ∧ q ≤ hi)
  ∧ (∃ row ∈ normalizeDb db (lo, hi), some lo ∈ row)
  ∧ (∃ row ∈ normalizeDb db (lo, hi), some hi ∈ row)

/-- C1: the claim requires that for a constant decibel spectrogram
(`max(db) == min(db)`, e.g. an all-zero waveform) min-max normalization
avoids the division by zero, returning either the midpoint of `norm_range`
everywhere or an explicit error.  The code performs the division `0 / 0`
unconditionally, so every output cell is NaN (modelled `none`): neither the
midpoint `1/2` nor an error value. -/
theorem preprocess_constant_db_is_nan :
    normalizeDb [[0, 0], [0, 0]] (0, 1) = [[none, none], [none, none]]
    ∧ preprocess (fun _ => [[0, 0], [0, 0]]) [0, 0, 0] 1 (0, 1)
      = [[[[none, none], [none, none]]]] := by
  constructor <;>
    norm_num [preprocess, normalizeDb, matMin, matMax, normCell, fdiv, fmul,
      fadd, List.min?, List.max?, List.flatten]

/-- C2: for a non-degenerate decibel spectrogram (`min < max`) and a
normalization range with `lo ≤ hi`, every cell of the tensor returned by
`preprocess` is a finite value in `[lo, hi]`, and at least one cell equals
`lo` and at least one equals `hi`. -/
theorem preprocess_norm_range (melDb : List ℚ → List (List ℚ)) (audio : List ℚ)
    (d lo hi : ℚ) (hlo : lo ≤ hi)
    (hdeg : matMin (melDb audio) < matMax (melDb audio)) :
    preprocess melDb audio d (lo, hi) = [[normalizeDb (melDb audio) (lo, hi)]]
    ∧ NormRangeOK (melDb audio) lo hi := by
  set db := melDb audio with hdb
  refine ⟨rfl, ?_, ?_, ?_⟩
  · intro row hrow v hv
    rw [normalizeDb] at hrow
    obtain ⟨r, hr, rfl⟩ := List.mem_map.mp hrow
    obtain ⟨x, hx, rfl⟩ := List.mem_map.mp hv
    have hxf : x ∈ db.flatten := List.mem_flatten_of_mem hr hx
    exact normCell_bounds hdeg hlo (matMin_le hxf) (le_matMax hxf)
  · have hmem : matMin db ∈ db.flatten := matMin_mem (flatten_ne_nil_of_lt hdeg)
    obtain ⟨r, hr, hxr⟩ := List.mem_flatten.mp hmem
    refine ⟨r.map (normCell (matMin db) (matMax db) lo hi), ?_, ?_⟩
    · exact List.mem_map.mpr ⟨r, hr, rfl⟩
    · exact List.mem_map.mpr ⟨matMin db, hxr, normCell_at_min lo hi hdeg⟩
  · have hmem : matMax db ∈ db.flatten := matMax_mem (flatten_ne_nil_of_lt hdeg)
    obtain ⟨r, hr, hxr⟩ := List.mem_flatten.mp hmem
    refine ⟨r.map (normCell (matMin db) (matMax db) lo hi), ?_, ?_⟩
    · exact List.mem_map.mpr ⟨r, hr, rfl⟩
    · exact List.mem_map.mpr ⟨matMax db, hxr, normCell_at_max lo hi hdeg⟩

/-- C2 witness: a concrete non-degenerate spectrogram with range (0, 1). -/
theorem preprocess_norm_range_witness :
    ((0 : ℚ) ≤ 1 ∧ matMin [[0, 2], [1, 1]] < matMax [[0, 2], [1, 1]])
    ∧ (preprocess (fun _ => [[0, 2], [1, 1]]) [] 1 (0, 1)
        = [[normalizeDb [[0, 2], [1, 1]] (0, 1)]]
      ∧ NormRangeOK [[0, 2], [1, 1]] 0 1) :=
  ⟨⟨by decide, by decide⟩,
    preprocess_norm_range (fun _ => [[0, 2], [1, 1]]) [] 1 0 1
      (by decide) (by decide)⟩

/-- C9: the tensor returned by `preprocess` has rank 4 and shape
`(1, 1, n_mels, t)`: the two leading dimensions are singletons, the third
equals the number of mel rows of the spectrogram (`n_mels`, a guarantee of
`librosa.feature.melspectrogram` taken as a hypothesis on `melDb`), and the
fourth is the common row length `t ≥ 1`. -/
theorem preprocess_shape (melDb : List ℚ → List (List ℚ)) (audio : List ℚ)
    (d : ℚ) (nr : ℚ × ℚ) (n_mels t : ℕ)
    (hrows : (melDb audio).length = n_mels)
    (hcols : ∀ r ∈ melDb audio, r.length = t) (ht : 0 < t) :
    (preprocess melDb audio d nr).length = 1
    ∧ (∀ plane ∈ preprocess melDb audio d nr, plane.length = 1
        ∧ ∀ mat ∈ plane, mat.length = n_mels
          ∧ ∀ row ∈ mat, row.length = t)
    ∧ 1 ≤ t := by
  refine ⟨rfl, ?_, ht⟩
  intro plane hplane
  rw [preprocess, List.mem_singleton] at hplane
  subst hplane
  refine ⟨rfl, ?_⟩
  intro mat hmat
  rw [List.mem_singleton] at hmat
  subst hmat
  constructor
  · simpa [normalizeDb] using hrows
  · intro row hrow
    rw [normalizeDb] at hrow
    obtain ⟨r, hr, rfl⟩ := List.mem_map.mp hrow
    simpa using hcols r hr

/-- C9 witness: a concrete 2-row, 1-column spectrogram. -/
theorem preprocess_shape_witness :
    (([[0], [1]] : List (List ℚ)).length = 2
      ∧ (∀ r ∈ ([[0], [1]] : List (List ℚ)), r.length = 1) ∧ 0 < 1)
    ∧ ((preprocess (fun _ => [[0], [1]]) [] 1 (0, 1)).length = 1
      ∧ (∀ plane ∈ preprocess (fun _ => [[0], [1]]) [] 1 (0, 1), plane.length = 1
          ∧ ∀ mat ∈ plane, mat.length = 2 ∧ ∀ row ∈ mat, row.length = 1)
      ∧ 1 ≤ 1) :=
  ⟨⟨by decide, by decide, by decide⟩,
    preprocess_shape (fun _ => [[0], [1]]) [] 1 (0, 1) 2 1 (by decide)
      (by decide) (by decide)⟩

/-- C10: `preprocess` is independent of its `duration` parameter: for the
same audio and any two durations the returned tensors are identical; the
signal is never trimmed or padded to the requested duration. -/
theorem preprocess_ignores_duration (melDb : List ℚ → List (List ℚ))
    (audio : List ℚ) (d₁ d₂ : ℚ) (nr : ℚ × ℚ) :
    preprocess melDb audio d₁ nr = preprocess melDb audio d₂ nr := rfl

/-! Segmenter lemmas and claims. -/

theorem firstActive_eq_none_iff {y : List ℚ} :
    firstActive y = none ↔ ∀ x ∈ y, |x| ≤ amplitude_threshold := by
  simp [firstActive, List.findIdx?_eq_none_iff, not_lt]

/-- C3: segmentation fails with the `No cough detected` error exactly when
no sample of the (denoised) waveform has absolute amplitude exceeding the
threshold, and in that case the composed pipeline short-circuits with the
same error, never reaching featurization. -/
theorem extract_cough_error_iff (y : List ℚ) (sr : ℕ) :
    (extract_cough y sr = Except.error "No cough detected in the audio."
      ↔ ∀ x ∈ y, |x| ≤ amplitude_threshold)
    ∧ ∀ (melDb : List ℚ → List (List ℚ)) (d : ℚ) (nr : ℚ × ℚ),
        (∀ x ∈ y, |x| ≤ amplitude_threshold) →
        pipelineSegmented melDb y sr d nr
          = Except.error "No cough detected in the audio." := by
  constructor
  · constructor
    · intro h
      cases e : firstActive y with
      | none => exact firstActive_eq_none_iff.mp e
      | some i => simp [extract_cough, e] at h
    · intro h
      rw [extract_cough, firstActive_eq_none_iff.mpr h]
  · intro melDb d nr h
    rw [pipelineSegmented, extract_cough, firstActive_eq_none_iff.mpr h]
    rfl

/-- C3 witness: a quiet two-sample waveform. -/
theorem extract_cough_error_iff_witness :
    (∀ x ∈ ([0, 1/100] : List ℚ), |x| ≤ amplitude_threshold)
    ∧ pipelineSegmented (fun _ => [[0]]) [0, 1/100] 4 1 (0, 1)
        = Except.error "No cough detected in the audio." :=
  ⟨by intro x hx; fin_cases hx <;> rw [abs_of_nonneg (by norm_num)] <;>
      norm_num [amplitude_threshold],
    (extract_cough_error_iff [0, 1/100] 4).2 (fun _ => [[0]]) 1 (0, 1)
      (by intro x hx; fin_cases hx <;> rw [abs_of_nonneg (by norm_num)] <;>
        norm_num [amplitude_threshold])⟩

/-- C4: when some sample exceeds the threshold, the extracted segment is
`y[start:end]` with `start = max(0, first_active − sr // 2)` (equal to the
truncated natural subtraction), `end = min(len(y), start + sr)`; the start
index is therefore nonnegative and the segment at most `sr` samples long
(`segment_duration_s = 1`). -/
theorem extract_cough_bounds (y : List ℚ) (sr : ℕ)
    (hex : ∃ x ∈ y, amplitude_threshold < |x|) :
    ∃ i s e, firstActive y = some i
      ∧ s = i - sr / 2
      ∧ (s : ℤ) = max 0 ((i : ℤ) - (sr : ℤ) / 2)
      ∧ e = min y.length (s + sr)
      ∧ extract_cough y sr = Except.ok ((y.drop s).take (e - s))
      ∧ ((y.drop s).take (e - s)).length ≤ sr := by
  have hex' : ∃ x, x ∈ y ∧ (fun x => decide (amplitude_threshold < |x|)) x := by
    obtain ⟨x, hx, hthr⟩ := hex
    exact ⟨x, hx, by simpa using hthr⟩
  have hfa : firstActive y
      = some (y.findIdx (fun x => decide (amplitude_threshold < |x|))) :=
    List.findIdx?_eq_some_of_exists hex'
  set i := y.findIdx (fun x => decide (amplitude_threshold < |x|)) with hidef
  refine ⟨i, i - sr / 2, min y.length (i - sr / 2 + sr), hfa, rfl, ?_, rfl, ?_, ?_⟩
  · have h2 : ((sr / 2 : ℕ) : ℤ) = (sr : ℤ) / 2 := by omega
    omega
  · rw [extract_cough, hfa]
  · rw [List.length_take]
    omega

/-- C4 witness: an impulse at index 1 with sample rate 2. -/
theorem extract_cough_bounds_witness :
    (∃ x ∈ ([0, 1, 0] : List ℚ), amplitude_threshold < |x|)
    ∧ ∃ i s e, firstActive [0, 1, 0] = some i
      ∧ s = i - 2 / 2
      ∧ (s : ℤ) = max 0 ((i : ℤ) - (2 : ℤ) / 2)
      ∧ e = min ([0, 1, 0] : List ℚ).length (s + 2)
      ∧ extract_cough [0, 1, 0] 2 = Except.ok ((([0, 1, 0] : List ℚ).drop s).take (e - s))
      ∧ ((([0, 1, 0] : List ℚ).drop s).take (e - s)).length ≤ 2 :=
  ⟨⟨1, by norm_num, by rw [abs_one]; norm_num [amplitude_threshold]⟩,
    extract_cough_bounds [0, 1, 0] 2
      ⟨1, by norm_num, by rw [abs_one]; norm_num [amplitude_threshold]⟩⟩

/-- C6: the waveform handed to featurization is the denoised, segmented
cough exactly when the duration `len(y)/sr` exceeds one second (equivalently
`sr < len(y)`), and the raw waveform otherwise. -/
theorem selectWaveform_branch (denoise : List ℚ → List ℚ) (y : List ℚ)
    (sr : ℕ) (hsr : 0 < sr) :
    (1 < get_duration y sr ↔ sr < y.length)
    ∧ (sr < y.length →
        selectWaveform denoise y sr = reduce_noise_and_extract_cough denoise y sr)
    ∧ (y.length ≤ sr → selectWaveform denoise y sr = Except.ok y) := by
  have hsrq : (0 : ℚ) < (sr : ℚ) := by exact_mod_cast hsr
  have hiff : 1 < get_duration y sr ↔ sr < y.length := by
    rw [get_duration, one_lt_div hsrq]
    exact_mod_cast Iff.rfl
  refine ⟨hiff, ?_, ?_⟩
  · intro h
    rw [selectWaveform, if_pos (hiff.mpr h)]
  · intro h
    rw [selectWaveform, if_neg (fun hc => absurd (hiff.mp hc) (not_lt.mpr h))]

/-- C6 witness: a two-sample waveform at sample rate 1 takes the
segmentation branch; at sample rate 2 it is featurized raw. -/
theorem selectWaveform_branch_witness :
    ((0 : ℕ) < 2 ∧ (2 : ℕ) < ([0, 1/10, 0] : List ℚ).length
      ∧ selectWaveform id [0, 1/10, 0] 2
          = reduce_noise_and_extract_cough id [0, 1/10, 0] 2)
    ∧ ((0 : ℕ) < 4 ∧ ([0, 1/10, 0] : List ℚ).length ≤ 4
      ∧ selectWaveform id [0, 1/10, 0] 4 = Except.ok [0, 1/10, 0]) :=
  ⟨⟨by decide, by decide,
      (selectWaveform_branch id [0, 1/10, 0] 2 (by decide)).2.1 (by decide)⟩,
   ⟨by decide, by decide,
      (selectWaveform_branch id [0, 1/10, 0] 4 (by decide)).2.2 (by decide)⟩⟩

/-! Spectral-gating lemmas and claim. -/

theorem getD_of_lt {α : Type} (l : List α) (d : α) {i : ℕ} (h : i < l.length) :
    l.getD i d = l[i] := by
  simp [List.getD_eq_getElem?_getD, List.getElem?_eq_getElem h]

theorem exists_of_mem_zipWith {α β γ : Type} {f : α → β → γ} {c : γ} :
    ∀ {as : List α} {bs : List β}, c ∈ List.zipWith f as bs →
      ∃ a b, a ∈ as ∧ b ∈ bs ∧ c = f a b := by
  intro as
  induction as with
  | nil => intro bs h; simp at h
  | cons a as ih =>
    intro bs h
    cases bs with
    | nil => simp at h
    | cons b bs =>
      rw [List.zipWith_cons_cons] at h
      rcases List.mem_cons.mp h with h | h
      · exact ⟨a, b, List.mem_cons_self _ _, List.mem_cons_self _ _, h⟩
      · obtain ⟨a', b', ha, hb, rfl⟩ := ih h
        exact ⟨a', b', List.mem_cons_of_mem _ ha, List.mem_cons_of_mem _ hb, rfl⟩

/-- C5: after spectral gating every time-frequency bin equals the original
magnitude minus `level × profile[bin]` clamped at zero, every suppressed
magnitude is nonnegative, and the clamped magnitude is paired bin-by-bin
with the original phase. -/
theorem spectral_gating_spec (noise_power : List ℚ) (level : ℚ)
    (magnitude phase : List (List ℚ)) :
    (∀ i j, i < noise_power.length → i < magnitude.length →
      j < (magnitude.getD i []).length →
      ((magnitude_denoised noise_power level magnitude).getD i []).getD j 0
        = max ((magnitude.getD i []).getD j 0 - level * noise_power.getD i 0) 0)
    ∧ (∀ row ∈ magnitude_denoised noise_power level magnitude, ∀ v ∈ row, 0 ≤ v)
    ∧ (∀ i j, i < noise_power.length → i < magnitude.length → i < phase.length →
        j < (magnitude.getD i []).length → j < (phase.getD i []).length →
        ((stft_denoised noise_power level magnitude phase).getD i []).getD j (0, 0)
          = (((magnitude_denoised noise_power level magnitude).getD i []).getD j 0,
             (phase.getD i []).getD j 0)) := by
  have hmd : ∀ i, i < noise_power.length → i < magnitude.length →
      (magnitude_denoised noise_power level magnitude).getD i []
        = (magnitude.getD i []).map (fun m => max (m - level * noise_power.getD i 0) 0) := by
    intro i hnp hm
    have hlen : i < (magnitude_denoised noise_power level magnitude).length := by
      simp only [magnitude_denoised, List.length_zipWith]
      omega
    rw [getD_of_lt _ _ hlen, getD_of_lt _ _ hm, getD_of_lt _ _ hnp]
    simp [magnitude_denoised, List.getElem_zipWith]
  refine ⟨?_, ?_, ?_⟩
  · intro i j hnp hm hj
    have hj' : j < ((magnitude.getD i []).map
        (fun m => max (m - level * noise_power.getD i 0) 0)).length := by
      simpa using hj
    rw [hmd i hnp hm, getD_of_lt _ _ hj', List.getElem_map, getD_of_lt _ _ hj]
  · intro row hrow v hv
    obtain ⟨p, r, -, -, rfl⟩ := exists_of_mem_zipWith hrow
    obtain ⟨m, -, rfl⟩ := List.mem_map.mp hv
    exact le_max_right _ 0
  · intro i j hnp hm hp hjm hjp
    have hmdlen : i < (magnitude_denoised noise_power level magnitude).length := by
      simp only [magnitude_denoised, List.length_zipWith]
      omega
    have hsd : (stft_denoised noise_power level magnitude phase).getD i []
        = ((magnitude_denoised noise_power level magnitude).getD i []).zip
            (phase.getD i []) := by
      have hslen : i < (stft_denoised noise_power level magnitude phase).length := by
        simp only [stft_denoised, magnitude_denoised, List.length_zipWith]
        omega
      rw [getD_of_lt _ _ hslen, getD_of_lt _ _ hmdlen, getD_of_lt _ _ hp]
      simp [stft_denoised, List.getElem_zipWith]
    have hjA : j < ((magnitude_denoised noise_power level magnitude).getD i []).length := by
      rw [hmd i hnp hm]
      simpa using hjm
    have hjz : j < (((magnitude_denoised noise_power level magnitude).getD i []).zip
        (phase.getD i [])).length := by
      rw [List.length_zip]
      omega
    rw [hsd, getD_of_lt _ _ hjz, List.getElem_zip, getD_of_lt _ _ hjA,
      getD_of_lt _ _ hjp]

/-- C5 witness: one frequency bin, two time frames, noise power 1,
level 3/2. -/
theorem spectral_gating_spec_witness :
    ((0 : ℕ) < ([1] : List ℚ).length ∧ (0 : ℕ) < ([[2, 1]] : List (List ℚ)).length
      ∧ (1 : ℕ) < (([[2, 1]] : List (List ℚ)).getD 0 []).length)
    ∧ ((magnitude_denoised [1] (3/2) [[2, 1]]).getD 0 []).getD 1 0
        = max ((([[2, 1]] : List (List ℚ)).getD 0 []).getD 1 0 - 3/2 * ([1] : List ℚ).getD 0 0) 0
    ∧ ((stft_denoised [1] (3/2) [[2, 1]] [[5, 7]]).getD 0 []).getD 0 (0, 0)
        = (((magnitude_denoised [1] (3/2) [[2, 1]]).getD 0 []).getD 0 0,
           (([[5, 7]] : List (List ℚ)).getD 0 []).getD 0 0) :=
  ⟨⟨by decide, by decide, by decide⟩,
    (spectral_gating_spec [1] (3/2) [[2, 1]] [[5, 7]]).1 0 1 (by decide) (by decide)
      (by decide),
    (spectral_gating_spec [1] (3/2) [[2, 1]] [[5, 7]]).2.2 0 0 (by decide) (by decide)
      (by decide) (by decide) (by decide)⟩

/-! Classification-engine lemmas and claims. -/

theorem exp_sum_pos (logits : List ℝ) (h : logits ≠ []) :
    0 < (logits.map Real.exp).sum := by
  refine List.sum_pos _ (fun x hx => ?_) (by simpa using h)
  obtain ⟨y, -, rfl⟩ := List.mem_map.mp hx
  exact Real.exp_pos y

theorem softmax_sum (logits : List ℝ) (h : logits ≠ []) :
    (softmax logits).sum = 1 := by
  have hpos := exp_sum_pos logits h
  calc (softmax logits).sum
      = (logits.map fun x => Real.exp x * ((logits.map Real.exp).sum)⁻¹).sum := by
        simp [softmax, div_eq_mul_inv]
    _ = (logits.map Real.exp).sum * ((logits.map Real.exp).sum)⁻¹ :=
        List.sum_map_mul_right logits Real.exp _
    _ = 1 := mul_inv_cancel₀ (ne_of_gt hpos)

theorem softmax_getD (logits : List ℝ) {i : ℕ} (hi : i < logits.length) :
    (softmax logits).getD i 0
      = Real.exp (logits.getD i 0) / (logits.map Real.exp).sum := by
  have hsl : i < (softmax logits).length := by simpa [softmax] using hi
  rw [getD_of_lt _ _ hsl, getD_of_lt _ _ hi]
  simp [softmax]

theorem softmax_getD_bounds (logits : List ℝ) (h : logits ≠ []) {i : ℕ}
    (hi : i < logits.length) :
    0 ≤ (softmax logits).getD i 0 ∧ (softmax logits).getD i 0 ≤ 1 := by
  have hpos := exp_sum_pos logits h
  rw [softmax_getD logits hi]
  constructor
  · exact div_nonneg (Real.exp_pos _).le hpos.le
  · rw [div_le_one hpos]
    have hmem : Real.exp (logits.getD i 0) ∈ logits.map Real.exp := by
      refine List.mem_map.mpr ⟨logits.getD i 0, ?_, rfl⟩
      rw [getD_of_lt _ _ hi]
      exact List.getElem_mem hi
    refine List.single_le_sum (fun x hx => ?_) _ hmem
    obtain ⟨y, -, rfl⟩ := List.mem_map.mp hx
    exact (Real.exp_pos y).le

theorem list_eq_map_getD_range (l : List ℝ) :
    (List.range l.length).map (fun i => l.getD i 0) = l := by
  apply List.ext_getElem
  · simp
  · intro i h1 h2
    simp only [List.getElem_map, List.getElem_range]
    exact getD_of_lt l 0 h2

/-- The probability mapping is a full distribution over the class list: all
values in `[0, 1]`, total mass exactly 1 (hence within `1e-4` of 1), one
entry per class name, and it is the mapping `predict_audio` returns. -/
def ProbabilityLawOK (logits : List ℝ) (class_names : List String) : Prop :=
  (∀ pr ∈ class_probabilities class_names (softmax logits), 0 ≤ pr.2 ∧ pr.2 ≤ 1)
  ∧ ((class_probabilities class_names (softmax logits)).map Prod.snd).sum = 1
  ∧ |((class_probabilities class_names (softmax logits)).map Prod.snd).sum - 1|
      ≤ 1 / 10000
  ∧ (∀ name ∈ class_names,
      ∃ p, (name, p) ∈ class_probabilities class_names (softmax logits))
  ∧ (predict_audio logits class_names).2
      = class_probabilities class_names (softmax logits)

/-- C7: for any logits vector and class list of matching length, the
returned probability mapping assigns each name a probability in `[0, 1]`,
the probabilities sum to 1 (so within `1e-4` of 1), and every class name
has an entry — the full distribution is returned. -/
theorem predict_audio_probability_law (logits : List ℝ)
    (class_names : List String) (hne : logits ≠ [])
    (hlen : class_names.length = logits.length) :
    ProbabilityLawOK logits class_names := by
  have hsml : (softmax logits).length = logits.length := by simp [softmax]
  have hsum : ((class_probabilities class_names (softmax logits)).map Prod.snd).sum = 1 := by
    have hmap : (class_probabilities class_names (softmax logits)).map Prod.snd
        = (List.range (softmax logits).length).map (fun i => (softmax logits).getD i 0) := by
      simp [class_probabilities, List.map_map, Function.comp, hlen, hsml]
    rw [hmap, list_eq_map_getD_range, softmax_sum logits hne]
  refine ⟨?_, hsum, ?_, ?_, rfl⟩
  · intro pr hpr
    rw [class_probabilities] at hpr
    obtain ⟨i, hi, rfl⟩ := List.mem_map.mp hpr
    rw [List.mem_range] at hi
    have hil : i < logits.length := hlen ▸ hi
    show 0 ≤ (softmax logits).getD i 0 ∧ (softmax logits).getD i 0 ≤ 1
    exact softmax_getD_bounds logits hne hil
  · rw [hsum]
    norm_num
  · intro name hname
    obtain ⟨i, hi, rfl⟩ := List.mem_iff_getElem.mp hname
    refine ⟨(softmax logits).getD i 0, List.mem_map.mpr ⟨i, List.mem_range.mpr hi, ?_⟩⟩
    rw [getD_of_lt _ _ hi]

/-- C7 witness: three equal logits over the three fixed class names. -/
theorem predict_audio_probability_law_witness :
    (([0, 0, 0] : List ℝ) ≠ []
      ∧ (["neither", "viral", "bacterial"] : List String).length
          = ([0, 0, 0] : List ℝ).length)
    ∧ ProbabilityLawOK [0, 0, 0] ["neither", "viral", "bacterial"] :=
  ⟨⟨by simp, rfl⟩,
    predict_audio_probability_law [0, 0, 0] ["neither", "viral", "bacterial"]
      (by simp) rfl⟩

/-- C8: `argmax` returns an index attaining the maximum of the probability
vector, strictly larger than every strictly earlier entry (lowest maximal
index, torch's documented tie-break), and the predicted class name is the
class list entry at that index. -/
theorem predict_audio_argmax_lowest :
    (∀ {α : Type} [LinearOrder α] (probs : List α), probs ≠ [] →
      ∃ i, argmax probs = i ∧ ∃ hi : i < probs.length,
        (∀ j (hj : j < probs.length), probs.get ⟨j, hj⟩ ≤ probs.get ⟨i, hi⟩)
        ∧ (∀ j (hj : j < probs.length), j < i →
            probs.get ⟨j, hj⟩ < probs.get ⟨i, hi⟩))
    ∧ (∀ (logits : List ℝ) (class_names : List String),
        (predict_audio logits class_names).1
          = class_names.getD (argmax (softmax logits)) "") := by
  constructor
  · intro α inst probs hne
    obtain ⟨M, hM, hMmem, hMub⟩ := max?_spec hne
    have hex : ∃ x ∈ probs, (fun x => decide (M ≤ x)) x :=
      ⟨M, hMmem, by simp⟩
    have hidx : argmax probs = probs.findIdx (fun x => decide (M ≤ x)) := by
      rw [argmax, hM]
    have hlt : probs.findIdx (fun x => decide (M ≤ x)) < probs.length :=
      List.findIdx_lt_length_of_exists hex
    have hMle : M ≤ probs.get ⟨probs.findIdx (fun x => decide (M ≤ x)), hlt⟩ := by
      have h1 := List.findIdx_getElem (w := hlt)
      simpa [List.get_eq_getElem] using h1
    refine ⟨probs.findIdx (fun x => decide (M ≤ x)), hidx, hlt, ?_, ?_⟩
    · intro j hj
      exact le_trans (hMub _ (List.get_mem probs j hj)) hMle
    · intro j hj hji
      have hnot := List.not_of_lt_findIdx hji
      have hnot' : ¬ M ≤ probs.get ⟨j, hj⟩ := by
        simpa [List.get_eq_getElem] using hnot
      exact lt_of_lt_of_le (lt_of_not_le hnot') hMle
  · intro logits class_names
    rfl

/-- C8 witness: a tie between the first two entries is resolved to the
lowest index. -/
theorem predict_audio_argmax_lowest_witness :
    (([2, 2, 1] : List ℚ) ≠ [])
    ∧ (∃ i, argmax ([2, 2, 1] : List ℚ) = i ∧ ∃ hi : i < ([2, 2, 1] : List ℚ).length,
        (∀ j (hj : j < ([2, 2, 1] : List ℚ).length),
          ([2, 2, 1] : List ℚ).get ⟨j, hj⟩ ≤ ([2, 2, 1] : List ℚ).get ⟨i, hi⟩)
        ∧ (∀ j (hj : j < ([2, 2, 1] : List ℚ).length), j < i →
          ([2, 2, 1] : List ℚ).get ⟨j, hj⟩ < ([2, 2, 1] : List ℚ).get ⟨i, hi⟩)) :=
  ⟨by simp, predict_audio_argmax_lowest.1 ([2, 2, 1] : List ℚ) (by simp)⟩

end CoughPipeline
